import Mathlib

/- Formal model of the Apache-Scraper repository (src/scraper): the
pagination / retry / resume core (jira_client.py, checkpoint.py, cli.py)
and the document transformer (transform.py).  Every definition below is a
shallow embedding of the corresponding Python function; wall-clock
durations are modelled as rationals (seconds), text as lists of
characters, and the random jitter draw and the HTTP server as explicit
parameters. -/

namespace Scraper

/-- Retry-After header contents as seen by JiraScraper._request, after the
string inspection the source performs: a digits-only value (int seconds),
an HTTP date (modelled by the signed difference in seconds between the
parsed date and the current time, i.e. the value of
(dt - datetime.datetime.now(dt.tzinfo)).total_seconds()), or a value that
parsedate_to_datetime rejects. -/
inductive Hint where
  | secondsHint (n : Nat)
  | dateHint (delta : ℚ)
  | badHint
deriving DecidableEq

/-- Outcome of one underlying client.get call inside JiraScraper._request:
either an httpx.RequestError (network-level fault) or a response carrying
a status code, an optional Retry-After header, and a flag telling whether
resp.json() succeeds. -/
inductive AttemptOutcome where
  | netError
  | response (status : Nat) (retryAfter : Option Hint) (jsonOk : Bool)
deriving DecidableEq

/-- The JiraScraper constructor arguments that _request consults. -/
structure RetryConfig where
  max_retries : Nat
  backoff_factor : Nat
deriving DecidableEq

/-- Exponential backoff base wait from jira_client.py:
min(self.backoff_factor ** attempt, 60). -/
def expBackoff (cfg : RetryConfig) (attempt : Nat) : ℚ :=
  min ((cfg.backoff_factor : ℚ) ^ attempt) 60

/-- Wait chosen by _request for an HTTP 429 response: the numeric
Retry-After value if the header is all digits, else the clamped distance
to the Retry-After HTTP date if it parses, else (missing or unusable
header) the exponential backoff base. -/
def waitFor429 (cfg : RetryConfig) (attempt : Nat) : Option Hint → ℚ
  | some (.secondsHint n) => n
  | some (.dateHint d) => max 0 d
  | some .badHint => expBackoff cfg attempt
  | none => expBackoff cfg attempt

/-- How one call to JiraScraper._request ends: a parsed JSON body, or one
of the JiraClientError raises in the source (invalid JSON on a 200,
unexpected HTTP status, network retries exhausted, max retries
exceeded). -/
inductive ReqResult where
  | ok
  | invalidJson
  | httpError (status : Nat)
  | netExhausted
  | maxRetries
deriving DecidableEq

/-- The while-loop of JiraScraper._request.  The list holds the outcome of
each successive client.get call; jitter gives the value drawn by
random.uniform on each attempt number.  Returns the result, the list of
sleep durations performed (in order), and the number of attempts made;
none when the supplied outcome list is shorter than the run (the real
server always answers, so runs of interest never hit it). -/
def requestGo (cfg : RetryConfig) (jitter : Nat → ℚ) :
    Nat → List AttemptOutcome → Option (ReqResult × List ℚ × Nat)
  | _, [] => none
  | attempt, o :: rest =>
    let k := attempt + 1
    match o with
    | .netError =>
      let s := expBackoff cfg k + jitter k
      if cfg.max_retries ≤ k then some (.netExhausted, [s], 1)
      else
        match requestGo cfg jitter k rest with
        | none => none
        | some (r, ss, n) => some (r, s :: ss, n + 1)
    | .response status hint jsonOk =>
      if status = 200 then
        if jsonOk then some (.ok, [], 1) else some (.invalidJson, [], 1)
      else if status = 429 then
        let s := waitFor429 cfg k hint + jitter k
        if cfg.max_retries ≤ k then some (.maxRetries, [s], 1)
        else
          match requestGo cfg jitter k rest with
          | none => none
          | some (r, ss, n) => some (r, s :: ss, n + 1)
      else if 500 ≤ status ∧ status < 600 then
        let s := expBackoff cfg k + jitter k
        if cfg.max_retries ≤ k then some (.maxRetries, [s], 1)
        else
          match requestGo cfg jitter k rest with
          | none => none
          | some (r, ss, n) => some (r, s :: ss, n + 1)
      else some (.httpError status, [], 1)

/-- A full call to JiraScraper._request starts with attempt = 0. -/
def request (cfg : RetryConfig) (jitter : Nat → ℚ)
    (outs : List AttemptOutcome) : Option (ReqResult × List ℚ × Nat) :=
  requestGo cfg jitter 0 outs

/-- An outcome is a server-error response (HTTP 5xx). -/
def Is5xx (o : AttemptOutcome) : Prop :=
  ∃ s h j, o = .response s h j ∧ 500 ≤ s ∧ s < 600

/-- Outcomes _request retries: network faults, 429 and 5xx responses. -/
def Retryable (o : AttemptOutcome) : Prop :=
  o = .netError ∨ ∃ s h j, o = .response s h j ∧ (s = 429 ∨ (500 ≤ s ∧ s < 600))

/-- Base wait of a retried attempt, as the spec describes it: the hinted
seconds for a 429 with a numeric Retry-After, the clamped date distance
for a 429 with an HTTP-date Retry-After, and min(backoff_factor ^ k, 60)
for everything else that is retried. -/
def baseWait (cfg : RetryConfig) (k : Nat) : AttemptOutcome → ℚ
  | .netError => expBackoff cfg k
  | .response s hint _ =>
    if s = 429 then
      match hint with
      | some (.secondsHint n) => (n : ℚ)
      | some (.dateHint d) => max 0 d
      | _ => expBackoff cfg k
    else expBackoff cfg k

theorem requestGo_all5xx (cfg : RetryConfig) (jitter : Nat → ℚ) :
    ∀ (outs : List AttemptOutcome) (a : Nat),
      a < cfg.max_retries → cfg.max_retries ≤ a + outs.length →
      (∀ o ∈ outs, Is5xx o) →
      ∃ sleeps, requestGo cfg jitter a outs =
        some (.maxRetries, sleeps, cfg.max_retries - a) := by
  intro outs
  induction outs with
  | nil => intro a ha hlen _; simp at hlen; omega
  | cons o rest ih =>
    intro a ha hlen hall
    obtain ⟨s, h, j, rfl, hs1, hs2⟩ := hall o (by simp)
    have h200 : ¬ s = 200 := by omega
    have h429 : ¬ s = 429 := by omega
    have h5 : 500 ≤ s ∧ s < 600 := ⟨hs1, hs2⟩
    by_cases hstop : cfg.max_retries ≤ a + 1
    · refine ⟨[expBackoff cfg (a + 1) + jitter (a + 1)], ?_⟩
      have : cfg.max_retries - a = 1 := by omega
      simp only [requestGo, h200, if_false, h429, if_pos h5, if_pos hstop, this]
    · obtain ⟨ss, hss⟩ := ih (a + 1) (by omega)
        (by simp at hlen ⊢; omega)
        (fun o ho => hall o (by simp [ho]))
      refine ⟨(expBackoff cfg (a + 1) + jitter (a + 1)) :: ss, ?_⟩
      simp only [requestGo, h200, if_false, h429, if_pos h5, if_neg hstop, hss]
      have : cfg.max_retries - (a + 1) + 1 = cfg.max_retries - a := by omega
      simp [this]

theorem requestGo_allNet (cfg : RetryConfig) (jitter : Nat → ℚ) :
    ∀ (outs : List AttemptOutcome) (a : Nat),
      a < cfg.max_retries → cfg.max_retries ≤ a + outs.length →
      (∀ o ∈ outs, o = AttemptOutcome.netError) →
      ∃ sleeps, requestGo cfg jitter a outs =
        some (.netExhausted, sleeps, cfg.max_retries - a) := by
  intro outs
  induction outs with
  | nil => intro a ha hlen _; simp at hlen; omega
  | cons o rest ih =>
    intro a ha hlen hall
    have ho : o = AttemptOutcome.netError := hall o (by simp)
    subst ho
    by_cases hstop : cfg.max_retries ≤ a + 1
    · refine ⟨[expBackoff cfg (a + 1) + jitter (a + 1)], ?_⟩
      have : cfg.max_retries - a = 1 := by omega
      simp only [requestGo, if_pos hstop, this]
    · obtain ⟨ss, hss⟩ := ih (a + 1) (by omega)
        (by simp at hlen ⊢; omega)
        (fun o ho => hall o (by simp [ho]))
      refine ⟨(expBackoff cfg (a + 1) + jitter (a + 1)) :: ss, ?_⟩
      simp only [requestGo, if_neg hstop, hss]
      have : cfg.max_retries - (a + 1) + 1 = cfg.max_retries - a := by omega
      simp [this]

theorem baseWait_429 (cfg : RetryConfig) (k : Nat) (hint : Option Hint)
    (j : Bool) :
    baseWait cfg k (.response 429 hint j) = waitFor429 cfg k hint := by
  cases hint with
  | none => simp [baseWait, waitFor429]
  | some h => cases h <;> simp [baseWait, waitFor429]

theorem baseWait_not429 (cfg : RetryConfig) (k : Nat) (s : Nat)
    (hint : Option Hint) (j : Bool) (hs : ¬ s = 429) :
    baseWait cfg k (.response s hint j) = expBackoff cfg k := by
  simp [baseWait, hs]

theorem requestGo_sleeps (cfg : RetryConfig) (jitter : Nat → ℚ) :
    ∀ (outs : List AttemptOutcome) (a : Nat) (r : ReqResult)
      (sleeps : List ℚ) (n : Nat),
      requestGo cfg jitter a outs = some (r, sleeps, n) →
      ∀ i (hi : i < sleeps.length),
        ∃ o, outs.get? i = some o ∧ Retryable o ∧
          sleeps.get ⟨i, hi⟩ = baseWait cfg (a + i + 1) o + jitter (a + i + 1) := by
  intro outs
  induction outs with
  | nil => intro a r sleeps n hrun; simp [requestGo] at hrun
  | cons o rest ih =>
    intro a r sleeps n hrun i hi
    cases o with
    | netError =>
      simp only [requestGo] at hrun
      by_cases hstop : cfg.max_retries ≤ a + 1
      · rw [if_pos hstop] at hrun
        simp only [Option.some.injEq, Prod.mk.injEq] at hrun
        obtain ⟨hr, hs, hn⟩ := hrun
        subst hs
        have hi0 : i = 0 := by
          have : i < 1 := by simpa using hi
          omega
        subst hi0
        exact ⟨.netError, by simp, Or.inl rfl, by simp [baseWait]⟩
      · rw [if_neg hstop] at hrun
        cases hrec : requestGo cfg jitter (a + 1) rest with
        | none => rw [hrec] at hrun; simp at hrun
        | some v =>
          obtain ⟨r', ss, m⟩ := v
          rw [hrec] at hrun
          simp only [Option.some.injEq, Prod.mk.injEq] at hrun
          obtain ⟨hr, hs, hn⟩ := hrun
          subst hs
          cases i with
          | zero => exact ⟨.netError, by simp, Or.inl rfl, by simp [baseWait]⟩
          | succ j =>
            have hj : j < ss.length := by simpa using hi
            obtain ⟨o', ho1, ho2, ho3⟩ := ih (a + 1) r' ss m hrec j hj
            refine ⟨o', by simpa using ho1, ho2, ?_⟩
            have harith : a + 1 + j + 1 = a + (j + 1) + 1 := by omega
            rw [harith] at ho3
            simpa using ho3
    | response status hint jsonOk =>
      simp only [requestGo] at hrun
      by_cases h200 : status = 200
      · rw [if_pos h200] at hrun
        cases jsonOk with
        | true =>
          simp only [if_true, Option.some.injEq, Prod.mk.injEq] at hrun
          obtain ⟨hr, hs, hn⟩ := hrun
          subst hs
          simp at hi
        | false =>
          simp only [Bool.false_eq_true, if_false, Option.some.injEq,
            Prod.mk.injEq] at hrun
          obtain ⟨hr, hs, hn⟩ := hrun
          subst hs
          simp at hi
      · rw [if_neg h200] at hrun
        by_cases h429 : status = 429
        · subst h429
          rw [if_pos rfl] at hrun
          by_cases hstop : cfg.max_retries ≤ a + 1
          · rw [if_pos hstop] at hrun
            simp only [Option.some.injEq, Prod.mk.injEq] at hrun
            obtain ⟨hr, hs, hn⟩ := hrun
            subst hs
            have hi0 : i = 0 := by
              have : i < 1 := by simpa using hi
              omega
            subst hi0
            refine ⟨.response 429 hint jsonOk, by simp, ?_, ?_⟩
            · exact Or.inr ⟨429, hint, jsonOk, rfl, Or.inl rfl⟩
            · simp [baseWait_429]
          · rw [if_neg hstop] at hrun
            cases hrec : requestGo cfg jitter (a + 1) rest with
            | none => rw [hrec] at hrun; simp at hrun
            | some v =>
              obtain ⟨r', ss, m⟩ := v
              rw [hrec] at hrun
              simp only [Option.some.injEq, Prod.mk.injEq] at hrun
              obtain ⟨hr, hs, hn⟩ := hrun
              subst hs
              cases i with
              | zero =>
                refine ⟨.response 429 hint jsonOk, by simp, ?_, ?_⟩
                · exact Or.inr ⟨429, hint, jsonOk, rfl, Or.inl rfl⟩
                · simp [baseWait_429]
              | succ j =>
                have hj : j < ss.length := by simpa using hi
                obtain ⟨o', ho1, ho2, ho3⟩ := ih (a + 1) r' ss m hrec j hj
                refine ⟨o', by simpa using ho1, ho2, ?_⟩
                have harith : a + 1 + j + 1 = a + (j + 1) + 1 := by omega
                rw [harith] at ho3
                simpa using ho3
        · rw [if_neg h429] at hrun
          by_cases h5 : 500 ≤ status ∧ status < 600
          · rw [if_pos h5] at hrun
            by_cases hstop : cfg.max_retries ≤ a + 1
            · rw [if_pos hstop] at hrun
              simp only [Option.some.injEq, Prod.mk.injEq] at hrun
              obtain ⟨hr, hs, hn⟩ := hrun
              subst hs
              have hi0 : i = 0 := by
                have : i < 1 := by simpa using hi
                omega
              subst hi0
              refine ⟨.response status hint jsonOk, by simp, ?_, ?_⟩
              · exact Or.inr ⟨status, hint, jsonOk, rfl, Or.inr h5⟩
              · simp [baseWait_not429 cfg _ status hint jsonOk h429]
            · rw [if_neg hstop] at hrun
              cases hrec : requestGo cfg jitter (a + 1) rest with
              | none => rw [hrec] at hrun; simp at hrun
              | some v =>
                obtain ⟨r', ss, m⟩ := v
                rw [hrec] at hrun
                simp only [Option.some.injEq, Prod.mk.injEq] at hrun
                obtain ⟨hr, hs, hn⟩ := hrun
                subst hs
                cases i with
                | zero =>
                  refine ⟨.response status hint jsonOk, by simp, ?_, ?_⟩
                  · exact Or.inr ⟨status, hint, jsonOk, rfl, Or.inr h5⟩
                  · simp [baseWait_not429 cfg _ status hint jsonOk h429]
                | succ j =>
                  have hj : j < ss.length := by simpa using hi
                  obtain ⟨o', ho1, ho2, ho3⟩ := ih (a + 1) r' ss m hrec j hj
                  refine ⟨o', by simpa using ho1, ho2, ?_⟩
                  have harith : a + 1 + j + 1 = a + (j + 1) + 1 := by omega
                  rw [harith] at ho3
                  simpa using ho3
          · rw [if_neg h5] at hrun
            simp only [Option.some.injEq, Prod.mk.injEq] at hrun
            obtain ⟨hr, hs, hn⟩ := hrun
            subst hs
            simp at hi

/-- C1: when max_retries = N with N at least 1 and every attempt yields an
HTTP 5xx response, one call to JiraScraper._request performs exactly N
request attempts and then raises the retries-exhausted JiraClientError
(Max retries exceeded); when every attempt is a network-level fault the
same bound holds and the call raises the exhausted JiraClientError of the
network branch, the attempt counter starting at 1 and incrementing on
every retryable outcome. -/
theorem claim_C1_retries_exhausted (cfg : RetryConfig) (jitter : Nat → ℚ)
    (outs : List AttemptOutcome)
    (hN : 1 ≤ cfg.max_retries) (hlen : cfg.max_retries ≤ outs.length) :
    ((∀ o ∈ outs, Is5xx o) →
      ∃ sleeps, request cfg jitter outs =
        some (.maxRetries, sleeps, cfg.max_retries)) ∧
    ((∀ o ∈ outs, o = AttemptOutcome.netError) →
      ∃ sleeps, request cfg jitter outs =
        some (.netExhausted, sleeps, cfg.max_retries)) := by
  constructor
  · intro hall
    simpa [request] using
      requestGo_all5xx cfg jitter outs 0 (by omega) (by omega) hall
  · intro hall
    simpa [request] using
      requestGo_allNet cfg jitter outs 0 (by omega) (by omega) hall

theorem claim_C1_witness :
    (∃ sleeps, request ⟨2, 2⟩ (fun _ => 0)
        [.response 500 none true, .response 503 none true] =
        some (.maxRetries, sleeps, 2)) ∧
    (∃ sleeps, request ⟨2, 2⟩ (fun _ => 0) [.netError, .netError] =
        some (.netExhausted, sleeps, 2)) := by
  constructor
  · exact (claim_C1_retries_exhausted ⟨2, 2⟩ (fun _ => 0)
      [.response 500 none true, .response 503 none true]
      (by norm_num) (by norm_num)).1 (by
        intro o ho
        simp only [List.mem_cons, List.not_mem_nil, or_false] at ho
        rcases ho with rfl | rfl
        · exact ⟨500, none, true, rfl, by norm_num⟩
        · exact ⟨503, none, true, rfl, by norm_num⟩)
  · exact (claim_C1_retries_exhausted ⟨2, 2⟩ (fun _ => 0)
      [.netError, .netError] (by norm_num) (by norm_num)).2 (by
        intro o ho
        simp only [List.mem_cons, List.not_mem_nil, or_false] at ho
        rcases ho with rfl | rfl <;> rfl)

/-- C3: every sleep performed by a run of JiraScraper._request belongs to
a retried attempt k (1-based); its base is min(backoff_factor ^ k, 60)
for a 5xx, a network fault, or a 429 without a usable Retry-After hint,
the hinted seconds for a numeric Retry-After, and the hinted date
distance clamped to non-negative for an HTTP-date Retry-After; and the
jitter drawn uniformly from the interval from 0 to 1 + 0.1 * k is added
to the base, so the total sleep lies in that shifted interval. -/
theorem claim_C3_backoff_waits (cfg : RetryConfig) (jitter : Nat → ℚ)
    (outs : List AttemptOutcome) (r : ReqResult) (sleeps : List ℚ) (n : Nat)
    (hrun : request cfg jitter outs = some (r, sleeps, n))
    (hj : ∀ k, 0 ≤ jitter k ∧ jitter k < 1 + (k : ℚ) / 10) :
    ∀ i (hi : i < sleeps.length),
      ∃ o, outs.get? i = some o ∧ Retryable o ∧
        sleeps.get ⟨i, hi⟩ = baseWait cfg (i + 1) o + jitter (i + 1) ∧
        baseWait cfg (i + 1) o ≤ sleeps.get ⟨i, hi⟩ ∧
        sleeps.get ⟨i, hi⟩ < baseWait cfg (i + 1) o + (1 + ((i : ℚ) + 1) / 10) := by
  intro i hi
  obtain ⟨o, h1, h2, h3⟩ :=
    requestGo_sleeps cfg jitter outs 0 r sleeps n hrun i hi
  have h0 : (0 : Nat) + i + 1 = i + 1 := by omega
  rw [h0] at h3
  refine ⟨o, h1, h2, h3, ?_, ?_⟩
  · rw [h3]
    have := (hj (i + 1)).1
    linarith
  · rw [h3]
    have h4 := (hj (i + 1)).2
    have hcast : ((i + 1 : Nat) : ℚ) = (i : ℚ) + 1 := by push_cast; ring
    rw [hcast] at h4
    linarith

theorem claim_C3_witness :
    ∃ o, [AttemptOutcome.response 429 (some (.secondsHint 7)) true,
          AttemptOutcome.response 200 none true].get? 0 = some o ∧
      Retryable o ∧
      ([(7 : ℚ)]).get ⟨0, by norm_num⟩ = baseWait ⟨3, 2⟩ 1 o + 0 ∧
      baseWait ⟨3, 2⟩ 1 o ≤ ([(7 : ℚ)]).get ⟨0, by norm_num⟩ ∧
      ([(7 : ℚ)]).get ⟨0, by norm_num⟩ <
        baseWait ⟨3, 2⟩ 1 o + (1 + ((0 : ℚ) + 1) / 10) := by
  have hrun : request ⟨3, 2⟩ (fun _ => 0)
      [.response 429 (some (.secondsHint 7)) true,
       .response 200 none true] = some (.ok, [(7 : ℚ)], 2) := by
    norm_num [request, requestGo, waitFor429]
  have h := claim_C3_backoff_waits ⟨3, 2⟩ (fun _ => 0)
    [.response 429 (some (.secondsHint 7)) true, .response 200 none true]
    .ok [(7 : ℚ)] 2 hrun
    (by intro k; refine ⟨by norm_num, by positivity⟩)
    0 (by norm_num)
  simpa using h

/-- C4: a response whose status is neither 200 nor 429 nor 5xx, or a 200
response whose body fails to parse as JSON, makes JiraScraper._request
raise a JiraClientError right away: one attempt, no retry, no sleep,
whatever the attempt counter, the configuration and the outcomes that
would have followed. -/
theorem claim_C4_fatal_immediate (cfg : RetryConfig) (jitter : Nat → ℚ)
    (a : Nat) (rest : List AttemptOutcome) (status : Nat)
    (hint : Option Hint) (jsonOk : Bool)
    (h429 : status ≠ 429) (h5xx : ¬ (500 ≤ status ∧ status < 600))
    (h200 : status = 200 → jsonOk = false) :
    requestGo cfg jitter a (.response status hint jsonOk :: rest) =
      some ((if status = 200 then .invalidJson else .httpError status),
        [], 1) := by
  by_cases hs : status = 200
  · have hjf := h200 hs
    subst hjf
    subst hs
    simp [requestGo]
  · simp [requestGo, hs, h429, h5xx]

theorem claim_C4_witness :
    requestGo ⟨5, 2⟩ (fun _ => 0) 0 [.response 404 none true] =
      some (.httpError 404, [], 1) ∧
    requestGo ⟨5, 2⟩ (fun _ => 0) 0 [.response 200 none false, .netError] =
      some (.invalidJson, [], 1) := by
  constructor
  · have h := claim_C4_fatal_immediate ⟨5, 2⟩ (fun _ => 0) 0 [] 404 none true
      (by norm_num) (by omega) (by omega)
    simpa using h
  · have h := claim_C4_fatal_immediate ⟨5, 2⟩ (fun _ => 0) 0 [.netError]
      200 none false (by norm_num) (by omega) (fun _ => rfl)
    simpa using h

/-- Minimal model of Python JSON values, as json.load returns them to
checkpoint.load_checkpoint. -/
inductive Json where
  | null
  | bool (b : Bool)
  | num (n : Int)
  | str (s : String)
  | arr (elems : List Json)
  | obj (fields : List (String × Json))

/-- Python exceptions the checkpoint readers can raise when the parsed
store has an unexpected shape. -/
inductive PyErr where
  | attributeError
  | typeError
  | valueError
deriving DecidableEq

/-- Field names of the checkpoint document. -/
def projectsKey : String := "projects"

def lastStartKey : String := "last_start"

def downloadedKeysKey : String := "downloaded_keys"

/-- Python dict.get(key, default): returns the stored value or the
default; raises AttributeError when the receiver is not a dict. -/
def dictGet (j : Json) (key : String) (dflt : Json) : Except PyErr Json :=
  match j with
  | .obj fields =>
    match fields.lookup key with
    | some v => .ok v
    | none => .ok dflt
  | _ => .error .attributeError

/-- Python int(x) applied to a JSON value: ints pass through, bools map
to 0 or 1, digit strings parse, everything else raises. -/
def pyInt (j : Json) : Except PyErr Int :=
  match j with
  | .num n => .ok n
  | .bool b => .ok (if b then 1 else 0)
  | .str s =>
    match s.toNat? with
    | some n => .ok (n : Int)
    | none => .error .valueError
  | _ => .error .valueError

/-- Python membership test issue_key in keys, for the container shapes a
JSON value can take: list membership, dict-key membership, substring for
strings, TypeError otherwise. -/
def pyContains (container : Json) (key : String) : Except PyErr Bool :=
  match container with
  | .arr elems => .ok (elems.any (fun e =>
      match e with
      | .str s => s = key
      | _ => false))
  | .obj fields => .ok (fields.lookup key).isSome
  | .str s => .ok (decide (key.data <:+: s.data))
  | _ => .error .typeError

/-- State of the checkpoint.json file when a reader opens it. -/
inductive FileState where
  | missing
  | unreadable
  | parsed (j : Json)

/-- checkpoint.load_checkpoint: the empty default document for a missing
file, the empty default again when open/json.load raises, else the parsed
document. -/
def load_checkpoint : FileState → Json
  | .missing => .obj [(projectsKey, .obj [])]
  | .unreadable => .obj [(projectsKey, .obj [])]
  | .parsed j => j

/-- checkpoint.get_last_start: int applied to
data.get("projects", dict()).get(project, dict()).get("last_start", 0). -/
def get_last_start (project : String) (fs : FileState) : Except PyErr Int := do
  let data := load_checkpoint fs
  let projects ← dictGet data projectsKey (.obj [])
  let proj ← dictGet projects project (.obj [])
  let v ← dictGet proj lastStartKey (.num 0)
  pyInt v

/-- checkpoint.is_downloaded: membership of the issue key in
data.get("projects", dict()).get(project, dict())
.get("downloaded_keys", list()). -/
def is_downloaded (project : String) (issue_key : String) (fs : FileState) :
    Except PyErr Bool := do
  let data := load_checkpoint fs
  let projects ← dictGet data projectsKey (.obj [])
  let proj ← dictGet projects project (.obj [])
  let keys ← dictGet proj downloadedKeysKey (.arr [])
  pyContains keys issue_key

/-- C6: for every collection, a missing checkpoint file and an
unreadable or unparseable one both degrade to the empty default store
with an empty projects table, get_last_start returns 0 without raising,
and is_downloaded returns false without raising for every key. -/
theorem claim_C6_corrupt_degrades (project issue_key : String) :
    load_checkpoint .missing = .obj [(projectsKey, .obj [])] ∧
    load_checkpoint .unreadable = .obj [(projectsKey, .obj [])] ∧
    get_last_start project .missing = .ok 0 ∧
    get_last_start project .unreadable = .ok 0 ∧
    is_downloaded project issue_key .missing = .ok false ∧
    is_downloaded project issue_key .unreadable = .ok false := by
  exact ⟨rfl, rfl, rfl, rfl, rfl, rfl⟩

theorem claim_C6_witness :
    load_checkpoint .missing = .obj [(projectsKey, .obj [])] ∧
    load_checkpoint .unreadable = .obj [(projectsKey, .obj [])] ∧
    get_last_start ("SPARK") .missing = .ok 0 ∧
    get_last_start ("SPARK") .unreadable = .ok 0 ∧
    is_downloaded ("SPARK") ("SPARK-1") .missing = .ok false ∧
    is_downloaded ("SPARK") ("SPARK-1") .unreadable = .ok false :=
  claim_C6_corrupt_degrades ("SPARK") ("SPARK-1")

/-- Progress of one mutating checkpoint call (mark_downloaded or
set_last_start): it has not read yet, it holds the store contents its
load_checkpoint returned, or it has written back and returned. -/
inductive Phase where
  | ready
  | loaded (snapshot : List String)
  | finished
deriving DecidableEq

/-- Two concurrent mutating checkpoint calls over the shared durable
store; the store is abstracted to the data the mutations touch (for
mark_downloaded on one collection, its downloaded_keys list). -/
structure ConcState where
  store : List String
  t1 : Phase
  t2 : Phase
deriving DecidableEq

/-- One atomic action of a mutating call whose in-memory mutation is f.
In checkpoint.py only the write_text inside save_checkpoint runs under
_LOCK; the load_checkpoint read runs outside it.  Both actions are single
atomic steps here, so the lock adds no scheduling constraint between the
two calls. -/
def threadStep (f : List String → List String) (store : List String) :
    Phase → Option (Phase × List String)
  | .ready => some (.loaded store, store)
  | .loaded snap => some (.finished, f snap)
  | .finished => none

/-- Let the scheduled thread (true for the first call) take its next
atomic action. -/
def schedStep (f1 f2 : List String → List String) (st : ConcState)
    (tid : Bool) : Option ConcState :=
  if tid then
    match threadStep f1 st.store st.t1 with
    | some (p, s) => some ⟨s, p, st.t2⟩
    | none => none
  else
    match threadStep f2 st.store st.t2 with
    | some (p, s) => some ⟨s, st.t1, p⟩
    | none => none

/-- Run a schedule of thread choices from a state; none when a finished
thread is scheduled again. -/
def runSched (f1 f2 : List String → List String) :
    ConcState → List Bool → Option ConcState
  | st, [] => some st
  | st, tid :: rest =>
    match schedStep f1 f2 st tid with
    | some st2 => runSched f1 f2 st2 rest
    | none => none

/-- Both calls still have to run. -/
def initConc (s0 : List String) : ConcState := ⟨s0, .ready, .ready⟩

/-- The in-memory mutation of mark_downloaded: append the key if absent. -/
def markKey (k : String) (keys : List String) : List String :=
  if k ∈ keys then keys else keys ++ [k]

/-- A complete two-call schedule in which no step of one call falls
between the read and the write of the other: each call runs read and
write back to back. -/
def NoInterleave (sched : List Bool) : Prop :=
  sched = [true, true, false, false] ∨ sched = [false, false, true, true]

/-- C5 counterexample: the claim that every complete concurrent execution
of two mutating checkpoint calls keeps each read-modify-write contiguous
is false: with the lock guarding only the write-back, the schedule
read1 read2 write1 write2 runs to completion, and with two
mark_downloaded mutations of distinct keys on an empty store it loses the
first key entirely. -/
theorem claim_C5_counterexample :
    ¬ (∀ (f1 f2 : List String → List String) (s0 : List String)
        (sched : List Bool) (st : ConcState),
        runSched f1 f2 (initConc s0) sched = some st →
        st.t1 = .finished → st.t2 = .finished → NoInterleave sched) := by
  intro h
  have hrun : runSched (markKey ("a")) (markKey ("b")) (initConc [])
      [true, false, true, false] =
      some ⟨[("b" : String)], .finished, .finished⟩ := by
    simp [runSched, schedStep, threadStep, initConc, markKey]
  have := h (markKey ("a")) (markKey ("b")) [] [true, false, true, false]
    ⟨[("b" : String)], .finished, .finished⟩ hrun rfl rfl
  simp [NoInterleave] at this

/-- C5 amended: only the save_checkpoint write-back holds the store-wide
lock; the load_checkpoint read and in-memory mutation of a mutating call
run outside it, so two concurrent mutating calls can interleave between
the read and the write of one call: the schedule read1 read2 write1
write2 is a valid complete execution for every pair of mutations, and
the output of the second writer is computed from its stale pre-write
snapshot, silently
overwriting (last-writer-wins) whatever the first call wrote. -/
theorem claim_C5_lock_only_guards_write
    (f1 f2 : List String → List String) (s0 : List String) :
    runSched f1 f2 (initConc s0) [true, false, true, false] =
      some ⟨f2 s0, .finished, .finished⟩ ∧
    ¬ NoInterleave [true, false, true, false] := by
  constructor
  · rfl
  · simp [NoInterleave]

/-- Checkpoint state of one collection, generic in the key type (the
source uses strings; the orchestrator logic never inspects keys beyond
equality). -/
structure CP (K : Type) where
  last_start : Nat
  keys : List K
deriving DecidableEq

/-- Orchestrator state for one collection: the raw files persisted so far
(named by record key, save_raw_issue overwrites same-named files) and the
durable checkpoint. -/
structure OrchState (K : Type) where
  files : List K
  cp : CP K
deriving DecidableEq

/-- Body of the per-issue loop in cli.main: a record is modelled by its
optional key (Python truthiness of issue.get("key")).  A keyed record
already checkpointed is skipped entirely; otherwise save_raw_issue
persists it and mark_downloaded appends the key.  A keyless record is
neither persisted (save_raw_issue returns early) nor marked. -/
def processRecord {K : Type} [DecidableEq K] (st : OrchState K) :
    Option K → OrchState K
  | none => st
  | some k =>
    if k ∈ st.cp.keys then st
    else
      ⟨if k ∈ st.files then st.files else st.files ++ [k],
       ⟨st.cp.last_start, st.cp.keys ++ [k]⟩⟩

/-- The checkpoint-affecting primitive steps of cli.main. -/
inductive OrchOp (K : Type) where
  | record (r : Option K)
  | setLast (n : Nat)

/-- Apply one primitive step: process a record, or run
set_last_start(n) which overwrites the offset unconditionally. -/
def applyOp {K : Type} [DecidableEq K] (st : OrchState K) :
    OrchOp K → OrchState K
  | .record r => processRecord st r
  | .setLast n => ⟨st.files, ⟨n, st.cp.keys⟩⟩

/-- The steps cli.main performs while draining the pages of one
collection.  Page offsets follow fetch_issue_pages_for_project: the first
page sits at cur (the start_at the orchestrator loaded), each later page
is advanced by the length of the page before it, and after the records of
a page the orchestrator runs set_last_start(page_start + len(issues)). -/
def orchOps {K : Type} (cur : Nat) :
    List (List (Option K)) → List (OrchOp K)
  | [] => []
  | p :: ps =>
    p.map OrchOp.record ++
      (OrchOp.setLast (cur + p.length) :: orchOps (cur + p.length) ps)

/-- Run the steps to the final state. -/
def runOps {K : Type} [DecidableEq K] :
    OrchState K → List (OrchOp K) → OrchState K
  | st, [] => st
  | st, op :: rest => runOps (applyOp st op) rest

/-- All intermediate states of a run, one per step, in order. -/
def opsTrace {K : Type} [DecidableEq K] :
    OrchState K → List (OrchOp K) → List (OrchState K)
  | _, [] => []
  | st, op :: rest => applyOp st op :: opsTrace (applyOp st op) rest

theorem runOps_append {K : Type} [DecidableEq K] :
    ∀ (l1 l2 : List (OrchOp K)) (st : OrchState K),
      runOps st (l1 ++ l2) = runOps (runOps st l1) l2 := by
  intro l1
  induction l1 with
  | nil => intro l2 st; rfl
  | cons op rest ih => intro l2 st; simp [runOps, ih]

/-- C2: finishing a page always sets the checkpoint offset of the
collection to page_offset + len(page_records), whatever happened to the
individual records; and in the concrete resume scenario (checkpoint
loaded at offset 10, keys 1..10 already persisted, two fresh pages of ten
records at offsets 10 and 20) the run ends with exactly 30 persisted
records and checkpoint offset 30. -/
theorem claim_C2_page_checkpoint {K : Type} [DecidableEq K]
    (st : OrchState K) (cur : Nat) (p : List (Option K)) :
    (runOps st
        (p.map OrchOp.record ++ [OrchOp.setLast (cur + p.length)])).cp.last_start
      = cur + p.length ∧
    ((runOps (⟨List.range' 1 10, ⟨10, []⟩⟩ : OrchState Nat)
        (orchOps 10 [(List.range' 11 10).map some,
          (List.range' 21 10).map some])).files.length = 30 ∧
      (runOps (⟨List.range' 1 10, ⟨10, []⟩⟩ : OrchState Nat)
        (orchOps 10 [(List.range' 11 10).map some,
          (List.range' 21 10).map some])).cp.last_start = 30) := by
  refine ⟨?_, by decide, by decide⟩
  rw [runOps_append]
  rfl

/-- Orchestrator states compare by checkpoint progress: offset no larger
and downloaded keys contained. -/
def CpLe {K : Type} (a b : OrchState K) : Prop :=
  a.cp.last_start ≤ b.cp.last_start ∧ a.cp.keys ⊆ b.cp.keys

instance {K : Type} : IsTrans (OrchState K) CpLe :=
  ⟨fun _ _ _ h1 h2 => ⟨le_trans h1.1 h2.1, List.Subset.trans h1.2 h2.2⟩⟩

/-- Offsets written by set_last_start steps, in order. -/
def setLastsOf {K : Type} : List (OrchOp K) → List Nat
  | [] => []
  | .setLast n :: rest => n :: setLastsOf rest
  | .record _ :: rest => setLastsOf rest

theorem processRecord_last {K : Type} [DecidableEq K] (st : OrchState K)
    (r : Option K) : (processRecord st r).cp.last_start = st.cp.last_start := by
  cases r with
  | none => rfl
  | some k =>
    by_cases h : k ∈ st.cp.keys <;> simp [processRecord, h]

theorem processRecord_keys {K : Type} [DecidableEq K] (st : OrchState K)
    (r : Option K) : st.cp.keys ⊆ (processRecord st r).cp.keys := by
  cases r with
  | none => exact fun x hx => hx
  | some k =>
    by_cases h : k ∈ st.cp.keys
    · simp [processRecord, h]
    · simp only [processRecord, if_neg h]
      exact fun x hx => List.mem_append_left _ hx

theorem chain_opsTrace {K : Type} [DecidableEq K] :
    ∀ (ops : List (OrchOp K)) (st : OrchState K),
      List.Chain' (· ≤ ·) (st.cp.last_start :: setLastsOf ops) →
      List.Chain' CpLe (st :: opsTrace st ops) := by
  intro ops
  induction ops with
  | nil => intro st _; simp [opsTrace]
  | cons op rest ih =>
    intro st hch
    cases op with
    | record r =>
      have hlast := processRecord_last st r
      simp only [opsTrace, applyOp]
      rw [List.chain'_cons]
      constructor
      · exact ⟨le_of_eq hlast.symm, processRecord_keys st r⟩
      · apply ih
        have : setLastsOf (OrchOp.record r :: rest) = setLastsOf rest := rfl
        rw [this] at hch
        rw [hlast]
        exact hch
    | setLast n =>
      have hch2 := List.chain'_cons.mp (by simpa [setLastsOf] using hch)
      simp only [opsTrace, applyOp]
      rw [List.chain'_cons]
      constructor
      · exact ⟨hch2.1, fun x hx => hx⟩
      · exact ih _ hch2.2

theorem chain_setLasts {K : Type} :
    ∀ (ps : List (List (Option K))) (cur : Nat),
      List.Chain' (· ≤ ·) (cur :: setLastsOf (orchOps cur ps)) := by
  intro ps
  induction ps with
  | nil => intro cur; simp [orchOps, setLastsOf]
  | cons p rest ih =>
    intro cur
    have hskip : ∀ (l : List (Option K)) (ops : List (OrchOp K)),
        setLastsOf (l.map OrchOp.record ++ ops) = setLastsOf ops := by
      intro l
      induction l with
      | nil => intro ops; rfl
      | cons a l2 ih2 => intro ops; simpa [setLastsOf] using ih2 ops
    simp only [orchOps, hskip, setLastsOf]
    rw [List.chain'_cons]
    exact ⟨Nat.le_add_right cur p.length, ih (cur + p.length)⟩

/-- C7: along every orchestrator run of one collection that starts paging
from the loaded checkpoint offset, the stored last_start offset never
decreases and the downloaded_keys set never loses an element: over the
whole trace of states, any earlier state has offset at most, and keys a
subset of, any later state. -/
theorem claim_C7_checkpoint_monotone {K : Type} [DecidableEq K]
    (st0 : OrchState K) (pages : List (List (Option K))) (i j : Nat)
    (hij : i ≤ j)
    (hj : j < (st0 :: opsTrace st0 (orchOps st0.cp.last_start pages)).length) :
    ((st0 :: opsTrace st0 (orchOps st0.cp.last_start pages)).get
        ⟨i, by omega⟩).cp.last_start ≤
      ((st0 :: opsTrace st0 (orchOps st0.cp.last_start pages)).get
        ⟨j, hj⟩).cp.last_start ∧
    ((st0 :: opsTrace st0 (orchOps st0.cp.last_start pages)).get
        ⟨i, by omega⟩).cp.keys ⊆
      ((st0 :: opsTrace st0 (orchOps st0.cp.last_start pages)).get
        ⟨j, hj⟩).cp.keys := by
  have hchain : List.Chain' CpLe
      (st0 :: opsTrace st0 (orchOps st0.cp.last_start pages)) :=
    chain_opsTrace _ st0 (chain_setLasts pages st0.cp.last_start)
  have hpw := List.chain'_iff_pairwise.mp hchain
  rcases Nat.lt_or_ge i j with hlt | hge
  · exact List.pairwise_iff_get.mp hpw ⟨i, by omega⟩ ⟨j, hj⟩ hlt
  · have hii : i = j := by omega
    subst hii
    exact ⟨le_refl _, fun x hx => hx⟩

theorem claim_C7_witness :
    (((⟨[], ⟨0, []⟩⟩ : OrchState Nat) ::
        opsTrace ⟨[], ⟨0, []⟩⟩
          (orchOps (⟨[], ⟨0, []⟩⟩ : OrchState Nat).cp.last_start
            [[some 1]])).get ⟨0, by decide⟩).cp.last_start ≤
      (((⟨[], ⟨0, []⟩⟩ : OrchState Nat) ::
        opsTrace ⟨[], ⟨0, []⟩⟩
          (orchOps (⟨[], ⟨0, []⟩⟩ : OrchState Nat).cp.last_start
            [[some 1]])).get ⟨2, by decide⟩).cp.last_start ∧
    (((⟨[], ⟨0, []⟩⟩ : OrchState Nat) ::
        opsTrace ⟨[], ⟨0, []⟩⟩
          (orchOps (⟨[], ⟨0, []⟩⟩ : OrchState Nat).cp.last_start
            [[some 1]])).get ⟨0, by decide⟩).cp.keys ⊆
      (((⟨[], ⟨0, []⟩⟩ : OrchState Nat) ::
        opsTrace ⟨[], ⟨0, []⟩⟩
          (orchOps (⟨[], ⟨0, []⟩⟩ : OrchState Nat).cp.last_start
            [[some 1]])).get ⟨2, by decide⟩).cp.keys :=
  claim_C7_checkpoint_monotone (⟨[], ⟨0, []⟩⟩ : OrchState Nat) [[some 1]]
    0 2 (by omega) (by decide)

/-- Characters Python treats as whitespace in str.strip, str.splitlines
and the regex class backslash-s (ASCII range; the scraper feeds no other
whitespace). -/
def pyIsSpace (c : Char) : Bool :=
  c = ' ' || c = '\t' || c = '\n' || c = '\r' || c = '\x0b' || c = '\x0c'

/-- Remove trailing Python whitespace. -/
def dropTrailingWS (s : List Char) : List Char :=
  (s.reverse.dropWhile pyIsSpace).reverse

/-- Python str.strip with no arguments, on text modelled as a character
list. -/
def pyStrip (s : List Char) : List Char :=
  dropTrailingWS (s.dropWhile pyIsSpace)

/-- Python str.splitlines for the line breaks the scraper encounters
(newline, carriage return, and the CRLF pair). -/
def pySplitlines : List Char → List (List Char)
  | [] => []
  | '\n' :: cs => [] :: pySplitlines cs
  | '\r' :: '\n' :: cs => [] :: pySplitlines cs
  | '\r' :: cs => [] :: pySplitlines cs
  | c :: cs =>
    match pySplitlines cs with
    | [] => [[c]]
    | l :: ls => (c :: l) :: ls

/-- The comprehension the transformer uses repeatedly:
stripped non-blank lines of a text, in order. -/
def paragraphsOf (text : List Char) : List (List Char) :=
  ((pySplitlines text).map pyStrip).filter (fun p => p ≠ [])

/-- Python t.rsplit(" ", 1)[0]: everything before the last space of t,
or t itself when it contains no space. -/
def rsplitFirst (t : List Char) : List Char :=
  match t.reverse.dropWhile (fun c => c ≠ ' ') with
  | [] => t
  | _ :: pre => pre.reverse

/-- The three-dot ellipsis the truncation appends. -/
def ellipsis : List Char := ['.', '.', '.']

/-- transform.extract_short_summary: empty text gives the empty string;
else the first stripped non-blank line, returned whole when within
max_chars and otherwise cut at the last space of its max_chars-prefix
with the ellipsis appended; texts with no non-blank line fall back to the
raw prefix. -/
def extract_short_summary (text : List Char) (maxChars : Nat) : List Char :=
  if text = [] then []
  else
    match paragraphsOf text with
    | first :: _ =>
      if first.length ≤ maxChars then first
      else rsplitFirst (first.take maxChars) ++ ellipsis
    | [] => text.take maxChars

theorem dropWhile_head_false {α : Type} {p : α → Bool} :
    ∀ (l : List α) (x : α) (rest : List α),
      l.dropWhile p = x :: rest → p x = false := by
  intro l
  induction l with
  | nil => intro x rest h; simp [List.dropWhile] at h
  | cons a as ih =>
    intro x rest h
    by_cases hp : p a
    · rw [List.dropWhile_cons, if_pos hp] at h
      exact ih x rest h
    · rw [List.dropWhile_cons, if_neg hp] at h
      cases h
      simpa using hp

theorem rsplitFirst_split_of_cons (t : List Char) (x : Char)
    (pre : List Char)
    (hd : t.reverse.dropWhile (fun c => c ≠ ' ') = x :: pre) :
    t = rsplitFirst t ++
        ' ' :: (t.reverse.takeWhile (fun c => c ≠ ' ')).reverse ∧
      ∀ c ∈ (t.reverse.takeWhile (fun c => c ≠ ' ')).reverse, c ≠ ' ' := by
  have hx : x = ' ' := by
    have := dropWhile_head_false t.reverse x pre hd
    simpa using this
  subst hx
  have hsplit := List.takeWhile_append_dropWhile (fun c => c ≠ ' ') t.reverse
  rw [hd] at hsplit
  have hrsp : rsplitFirst t = pre.reverse := by
    unfold rsplitFirst
    rw [hd]
  constructor
  · rw [hrsp]
    apply List.reverse_injective
    rw [List.reverse_append, List.reverse_cons, List.reverse_reverse,
      List.reverse_reverse, List.append_assoc, List.singleton_append]
    exact hsplit.symm
  · intro c hc
    have hc2 : c ∈ t.reverse.takeWhile (fun c => c ≠ ' ') :=
      List.mem_reverse.mp hc
    have := List.mem_takeWhile_imp hc2
    simpa using this

theorem rsplitFirst_eq_or_append (t : List Char) :
    rsplitFirst t = t ∨
      ∃ tail, t = rsplitFirst t ++ ' ' :: tail ∧ ∀ c ∈ tail, c ≠ ' ' := by
  cases hd : t.reverse.dropWhile (fun c => c ≠ ' ') with
  | nil =>
    left
    unfold rsplitFirst
    rw [hd]
  | cons x pre =>
    right
    obtain ⟨h1, h2⟩ := rsplitFirst_split_of_cons t x pre hd
    exact ⟨_, h1, h2⟩

theorem rsplitFirst_prefixOf (t : List Char) : rsplitFirst t <+: t := by
  rcases rsplitFirst_eq_or_append t with h | ⟨tail, h, _⟩
  · rw [h]
  · exact ⟨' ' :: tail, h.symm⟩

theorem rsplitFirst_split (t : List Char) (h : ' ' ∈ t) :
    ∃ tail, t = rsplitFirst t ++ ' ' :: tail ∧ ∀ c ∈ tail, c ≠ ' ' := by
  cases hd : t.reverse.dropWhile (fun c => c ≠ ' ') with
  | nil =>
    exfalso
    have hall := List.dropWhile_eq_nil_iff.mp hd
    have hmem : (' ' : Char) ∈ t.reverse := List.mem_reverse.mpr h
    have := hall _ hmem
    simp at this
  | cons x pre =>
    obtain ⟨h1, h2⟩ := rsplitFirst_split_of_cons t x pre hd
    exact ⟨_, h1, h2⟩

/-- C8: extract_short_summary returns the empty string on empty text;
when the text has a first non-blank line l (stripped, as the source
computes it) of at most 200 characters it returns l unchanged; and when
l is longer it returns a prefix of l of at most 200 characters with the
ellipsis appended, the prefix being the 200-character prefix of l cut at
its last space — the nearest preceding word boundary — whenever that
prefix contains a space. -/
theorem claim_C8_short_summary :
    extract_short_summary [] 200 = [] ∧
    (∀ (text l : List Char) (rest : List (List Char)),
      text ≠ [] → paragraphsOf text = l :: rest → l.length ≤ 200 →
      extract_short_summary text 200 = l) ∧
    (∀ (text l : List Char) (rest : List (List Char)),
      text ≠ [] → paragraphsOf text = l :: rest → 200 < l.length →
      ∃ p, p <+: l ∧ p.length ≤ 200 ∧
        extract_short_summary text 200 = p ++ ellipsis ∧
        (' ' ∈ l.take 200 →
          ∃ tail, l.take 200 = p ++ ' ' :: tail ∧ ∀ c ∈ tail, c ≠ ' ')) := by
  refine ⟨rfl, ?_, ?_⟩
  · intro text l rest htext hpar hlen
    simp [extract_short_summary, htext, hpar, hlen]
  · intro text l rest htext hpar hlen
    refine ⟨rsplitFirst (l.take 200), ?_, ?_, ?_, ?_⟩
    · have h0 : l.take 200 <+: l := List.take_prefix 200 l
      exact (rsplitFirst_prefixOf (l.take 200)).trans h0
    · have h1 := (rsplitFirst_prefixOf (l.take 200)).length_le
      have h2 : (l.take 200).length ≤ 200 := by
        rw [List.length_take]
        omega
      omega
    · simp [extract_short_summary, htext, hpar, Nat.not_le.mpr hlen]
    · intro hsp
      exact rsplitFirst_split (l.take 200) hsp

set_option maxRecDepth 8000 in
theorem claim_C8_witness :
    (extract_short_summary [] 200 = [] ∧
      extract_short_summary (('H' :: ('i' :: [])) ++ '\n' :: ('m' :: [])) 200 =
        'H' :: ('i' :: [])) ∧
    (∃ p, p <+: (List.replicate 120 'a' ++ ' ' :: List.replicate 130 'b') ∧
      p.length ≤ 200 ∧
      extract_short_summary
          (List.replicate 120 'a' ++ ' ' :: List.replicate 130 'b') 200 =
        p ++ ellipsis ∧
      (' ' ∈ (List.replicate 120 'a' ++ ' ' :: List.replicate 130 'b').take 200 →
        ∃ tail,
          (List.replicate 120 'a' ++ ' ' :: List.replicate 130 'b').take 200 =
            p ++ ' ' :: tail ∧ ∀ c ∈ tail, c ≠ ' ')) := by
  refine ⟨⟨claim_C8_short_summary.1, ?_⟩, ?_⟩
  · exact claim_C8_short_summary.2.1
      (('H' :: ('i' :: [])) ++ '\n' :: ('m' :: []))
      ('H' :: ('i' :: [])) [('m' :: [])]
      (by decide) (by decide) (by decide)
  · exact claim_C8_short_summary.2.2
      (List.replicate 120 'a' ++ ' ' :: List.replicate 130 'b')
      (List.replicate 120 'a' ++ ' ' :: List.replicate 130 'b') []
      (by decide) (by decide) (by decide)

/-- Scanner for tag-delimited markup: collects the text runs between
tags.  The flag says whether the scanner is inside a tag; leaving a tag
emits an empty-run marker so that text runs separated by a tag stay
separate. -/
def segsGo : Bool → List Char → List (List Char)
  | _, [] => []
  | true, c :: cs =>
    if c = '>' then [] :: segsGo false cs else segsGo true cs
  | false, c :: cs =>
    if c = '<' then segsGo true cs
    else
      match segsGo false cs with
      | [] => [[c]]
      | l :: ls => (c :: l) :: ls

/-- The strings BeautifulSoup(html, html.parser).get_text(separator)
joins for plain tag-delimited markup: the non-empty maximal text runs
outside tags, in document order (entities and comments do not occur in
the inputs the claims are about). -/
def segments (s : List Char) : List (List Char) :=
  (segsGo false s).filter (fun l => l ≠ [])

/-- Replace every maximal run of newlines by at most two newlines,
carrying the length of the pending run: the model of
re.sub(r"\n{2,}", "\n\n", text). -/
def collapseNLGo : Nat → List Char → List Char
  | k, [] => List.replicate (min k 2) '\n'
  | k, c :: cs =>
    if c = '\n' then collapseNLGo (k + 1) cs
    else List.replicate (min k 2) '\n' ++ c :: collapseNLGo 0 cs

def collapseNewlines (s : List Char) : List Char := collapseNLGo 0 s

/-- Atlassian Document Format values as _adf_to_text walks them: a dict
carrying a string text field (contributed immediately), a typed dict with
an optional content list, a bare string met inside a content list, and
null (contributes nothing).  Other scalars do not occur in the inputs the
claims are about. -/
inductive ADF where
  | text (s : String)
  | node (type : String) (content : Option (List ADF))
  | strVal (s : String)
  | nullVal

/-- Node types _adf_to_text inserts a line break after. -/
def isBlockType (t : String) : Bool :=
  t = "paragraph" || t = "heading" || t = "blockquote" ||
    t = "codeBlock" || t = "panel"

/-- The newline part a block node appends. -/
def newlineStr : String := "\n"

mutual

/-- The parts list _walk builds for one ADF node. -/
def adfParts : ADF → List String
  | .text s => [s]
  | .strVal s => [s]
  | .nullVal => []
  | .node t none => if isBlockType t then [newlineStr] else []
  | .node t (some cs) =>
    adfPartsList cs ++ (if isBlockType t then [newlineStr] else [])

/-- The parts contributed by a content list, in order. -/
def adfPartsList : List ADF → List String
  | [] => []
  | n :: ns => adfParts n ++ adfPartsList ns

end

/-- Replace every maximal whitespace run by a single space, carrying a
pending-run flag: the model of re.sub(r"\s+", " ", text). -/
def collapseWSGo : Bool → List Char → List Char
  | pending, [] => if pending then [' '] else []
  | pending, c :: cs =>
    if pyIsSpace c then collapseWSGo true cs
    else (if pending then [' '] else []) ++ c :: collapseWSGo false cs

def collapseWS (s : List Char) : List Char := collapseWSGo false s

/-- transform._adf_to_text: join the walked parts, collapse every
whitespace run to one space, strip. -/
def adf_to_text (d : ADF) : List Char :=
  pyStrip (collapseWS (((adfParts d).map String.data).flatten))

/-- The two description shapes transform.html_to_text dispatches on: a
structured ADF document (a dict) or legacy markup (a string). -/
inductive DescInput where
  | adf (doc : ADF)
  | markup (s : List Char)

/-- transform.html_to_text: empty markup gives the empty string; a dict
goes to the ADF walker; other markup is parsed, its text runs joined by
single newlines (get_text with a newline separator), stripped, and runs
of two or more newlines collapsed to exactly two. -/
def html_to_text : DescInput → List Char
  | .adf d => adf_to_text d
  | .markup s =>
    if s = [] then []
    else collapseNewlines (pyStrip (List.intercalate ['\n'] (segments s)))

/-- Word chunks of a text: maximal runs of non-whitespace characters
(an empty marker is produced per whitespace character and filtered
away by wordsOf). -/
def wordChunks : List Char → List (List Char)
  | [] => []
  | c :: cs =>
    if pyIsSpace c then [] :: wordChunks cs
    else
      match wordChunks cs with
      | [] => [[c]]
      | l :: ls => (c :: l) :: ls

/-- The whitespace-separated words of a text, in order. -/
def wordsOf (s : List Char) : List (List Char) :=
  (wordChunks s).filter (fun l => l ≠ [])

/-- Does the text begin with a whitespace character. -/
def startsWS : List Char → Bool
  | [] => false
  | c :: _ => pyIsSpace c

theorem wordsOf_ws_cons (c : Char) (cs : List Char)
    (h : pyIsSpace c = true) : wordsOf (c :: cs) = wordsOf cs := by
  simp [wordsOf, wordChunks, h]

theorem intercalate_cons_cons (sep x y : List Char)
    (zs : List (List Char)) :
    List.intercalate sep (x :: y :: zs) =
      x ++ sep ++ List.intercalate sep (y :: zs) := by
  simp [List.intercalate]

theorem intercalate_head_cons (c : Char) (w : List Char)
    (F : List (List Char)) :
    List.intercalate [' '] ((c :: w) :: F) =
      c :: List.intercalate [' '] (w :: F) := by
  cases F with
  | nil => simp [List.intercalate]
  | cons f fs =>
    rw [intercalate_cons_cons, intercalate_cons_cons]
    simp

theorem dropTrailing_append_nonws (A B : List Char) (c : Char)
    (hc : pyIsSpace c = false) :
    dropTrailingWS (A ++ c :: B) = A ++ c :: dropTrailingWS B := by
  unfold dropTrailingWS
  rw [List.reverse_append, List.reverse_cons, List.append_assoc,
    List.singleton_append, List.dropWhile_append]
  by_cases hB : (B.reverse.dropWhile pyIsSpace).isEmpty
  · rw [if_pos hB]
    rw [List.dropWhile_cons, if_neg (by simp [hc])]
    have hBnil : B.reverse.dropWhile pyIsSpace = [] := by
      simpa using hB
    rw [hBnil]
    simp
  · rw [if_neg hB]
    rw [List.reverse_append, List.reverse_cons, List.reverse_reverse]
    simp

theorem pyIsSpace_space : pyIsSpace ' ' = true := rfl

theorem dropWhile_collapseWS_true (s : List Char) :
    (collapseWSGo true s).dropWhile pyIsSpace =
      collapseWSGo false (s.dropWhile pyIsSpace) := by
  induction s with
  | nil => simp [collapseWSGo, List.dropWhile, pyIsSpace]
  | cons c cs ih =>
    by_cases h : pyIsSpace c = true
    · simp only [collapseWSGo, h, if_true, List.dropWhile_cons, ih]
    · have hb : pyIsSpace c = false := by simpa using h
      simp only [collapseWSGo, hb, Bool.false_eq_true, if_false, if_true,
        List.singleton_append, List.dropWhile_cons, pyIsSpace_space]
      simp

theorem dropWhile_collapseWS_false (s : List Char) :
    (collapseWSGo false s).dropWhile pyIsSpace =
      collapseWSGo false (s.dropWhile pyIsSpace) := by
  cases s with
  | nil => rfl
  | cons c cs =>
    by_cases h : pyIsSpace c = true
    · simp only [collapseWSGo, h, if_true, List.dropWhile_cons]
      exact dropWhile_collapseWS_true cs
    · have hb : pyIsSpace c = false := by simpa using h
      simp only [collapseWSGo, hb, Bool.false_eq_true, if_false,
        List.nil_append, List.dropWhile_cons]

theorem wordsOf_dropWhile (s : List Char) :
    wordsOf (s.dropWhile pyIsSpace) = wordsOf s := by
  induction s with
  | nil => rfl
  | cons c cs ih =>
    by_cases h : pyIsSpace c = true
    · rw [List.dropWhile_cons, if_pos h, ih, wordsOf_ws_cons c cs h]
    · rw [List.dropWhile_cons, if_neg (by simp [h])]

theorem wordsOf_nonws_ne (c : Char) (cs : List Char)
    (h : pyIsSpace c = false) : (wordsOf (c :: cs)).isEmpty = false := by
  cases hch : wordChunks cs with
  | nil => simp [wordsOf, wordChunks, h, hch]
  | cons l ls => simp [wordsOf, wordChunks, h, hch]

theorem intercalate_words_cons (c : Char) (cs : List Char)
    (h : pyIsSpace c = false) :
    List.intercalate [' '] (wordsOf (c :: cs)) =
      c :: ((if startsWS cs && !(wordsOf cs).isEmpty then [' ']
          else []) ++ List.intercalate [' '] (wordsOf cs)) := by
  cases cs with
  | nil => simp [wordsOf, wordChunks, h, startsWS, List.intercalate]
  | cons d ds =>
    by_cases hd : pyIsSpace d = true
    · have hws : wordsOf (c :: d :: ds) = [c] :: wordsOf ds := by
        simp [wordsOf, wordChunks, h, hd]
      have hws2 : wordsOf (d :: ds) = wordsOf ds := wordsOf_ws_cons d ds hd
      rw [hws, hws2]
      cases hwd : wordsOf ds with
      | nil => simp [startsWS, hd, List.intercalate]
      | cons w ws =>
        rw [intercalate_cons_cons]
        simp [startsWS, hd]
    · have hdb : pyIsSpace d = false := by simpa using hd
      have hstarts : startsWS (d :: ds) = false := by simp [startsWS, hdb]
      rw [hstarts]
      simp only [Bool.false_and, Bool.false_eq_true, if_false,
        List.nil_append]
      cases hrec : wordChunks ds with
      | nil =>
        simp [wordsOf, wordChunks, h, hdb, hrec, List.filter_cons,
          intercalate_head_cons, List.intercalate]
      | cons l ls =>
        simp [wordsOf, wordChunks, h, hdb, hrec, List.filter_cons,
          intercalate_head_cons]

theorem dropTrailing_collapseWSGo (s : List Char) :
    ∀ (flag : Bool),
      dropTrailingWS (collapseWSGo flag s) =
        (if (flag || startsWS s) && !(wordsOf s).isEmpty then [' ']
          else []) ++ List.intercalate [' '] (wordsOf s) := by
  induction s with
  | nil =>
    intro flag
    cases flag <;>
      simp [collapseWSGo, dropTrailingWS, wordsOf, wordChunks,
        List.intercalate, pyIsSpace]
  | cons c cs ih =>
    intro flag
    by_cases h : pyIsSpace c = true
    · simp only [collapseWSGo, h, if_true]
      rw [ih true, wordsOf_ws_cons c cs h]
      simp [startsWS, h]
    · have hb : pyIsSpace c = false := by simpa using h
      simp only [collapseWSGo, hb, Bool.false_eq_true, if_false]
      rw [dropTrailing_append_nonws _ _ c hb]
      rw [ih false]
      have hstarts : startsWS (c :: cs) = false := by simp [startsWS, hb]
      rw [hstarts]
      rw [intercalate_words_cons c cs hb]
      rw [wordsOf_nonws_ne c cs hb]
      simp

/-- The structured-tree normalization rule of _adf_to_text: collapsing
every whitespace run to a single space and trimming is exactly joining
the whitespace-separated words with single spaces. -/
theorem pyStrip_collapseWS (s : List Char) :
    pyStrip (collapseWS s) = List.intercalate [' '] (wordsOf s) := by
  unfold pyStrip collapseWS
  rw [dropWhile_collapseWS_false]
  rw [dropTrailing_collapseWSGo]
  have h1 : startsWS (s.dropWhile pyIsSpace) = false := by
    cases hd : s.dropWhile pyIsSpace with
    | nil => rfl
    | cons x rest =>
      have := dropWhile_head_false s x rest hd
      simp [startsWS, this]
  rw [h1, wordsOf_dropWhile]
  simp

theorem collapseNLGo_run (j : Nat) :
    ∀ (k : Nat) (cs : List Char),
      collapseNLGo k (List.replicate j '\n' ++ cs) =
        collapseNLGo (k + j) cs := by
  induction j with
  | zero => intro k cs; simp
  | succ j2 ih =>
    intro k cs
    rw [List.replicate_succ, List.cons_append]
    have hstep : collapseNLGo k ('\n' :: (List.replicate j2 '\n' ++ cs)) =
        collapseNLGo (k + 1) (List.replicate j2 '\n' ++ cs) := by
      simp [collapseNLGo]
    rw [hstep, ih (k + 1)]
    have : k + 1 + j2 = k + (j2 + 1) := by omega
    rw [this]

/-- The legacy-markup normalization rule of html_to_text: a run of k
newlines followed by a non-newline (or the end) becomes min(k, 2)
newlines — runs of two or more collapse to exactly one blank line,
single newlines survive unchanged. -/
theorem collapseNewlines_run (k : Nat) (cs : List Char)
    (hcs : cs.head? ≠ some '\n') :
    collapseNewlines (List.replicate k '\n' ++ cs) =
      List.replicate (min k 2) '\n' ++ collapseNewlines cs := by
  unfold collapseNewlines
  rw [collapseNLGo_run k 0 cs]
  cases cs with
  | nil => simp [collapseNLGo]
  | cons c cs2 =>
    have hc : ¬ c = '\n' := by
      intro h
      rw [h] at hcs
      simp at hcs
    simp [collapseNLGo, hc]

/-- C9 counterexample: the markup-path example of the claim is wrong on
the code: the record description made of two adjacent paragraph tags
normalizes to the two text runs joined by one single newline, not by a
blank line, because get_text with a newline separator inserts exactly
one separator between adjacent text nodes and the 2+-newline collapse
then finds nothing to collapse. -/
theorem claim_C9_counterexample :
    html_to_text (.markup ("<p>Hello</p><p>World</p>".data)) =
      "Hello\nWorld".data ∧
    "Hello\nWorld".data ≠ ("Hello\n\nWorld".data) := by
  exact ⟨by decide, by decide⟩

/-- C9 amended: the two plain-text extraction paths normalize whitespace
with different rules, each preserved per path: on the legacy-markup path
runs of two or more newlines collapse to exactly one blank line and
single newlines survive, so the description made of the two adjacent
paragraph tags yields the text runs joined by a single newline
(Hello newline World); on the structured-tree path every whitespace run
collapses to a single space and the result is trimmed, so the
doc/paragraph/text tree with text Hi there yields exactly Hi there. -/
theorem claim_C9_normalization (k : Nat) (cs s : List Char)
    (hcs : cs.head? ≠ some '\n') :
    html_to_text (.markup ("<p>Hello</p><p>World</p>".data)) =
      "Hello\nWorld".data ∧
    html_to_text (.adf (.node ("doc") (some [.node ("paragraph")
        (some [.text ("Hi there")])]))) = "Hi there".data ∧
    collapseNewlines (List.replicate k '\n' ++ cs) =
      List.replicate (min k 2) '\n' ++ collapseNewlines cs ∧
    pyStrip (collapseWS s) = List.intercalate [' '] (wordsOf s) := by
  exact ⟨by decide, by decide, collapseNewlines_run k cs hcs,
    pyStrip_collapseWS s⟩

theorem claim_C9_witness :
    html_to_text (.markup ("<p>Hello</p><p>World</p>".data)) =
      "Hello\nWorld".data ∧
    html_to_text (.adf (.node ("doc") (some [.node ("paragraph")
        (some [.text ("Hi there")])]))) = "Hi there".data ∧
    collapseNewlines (List.replicate 3 '\n' ++ "ab".data) =
      List.replicate (min 3 2) '\n' ++ collapseNewlines ("ab".data) ∧
    pyStrip (collapseWS (" x  y ".data)) =
      List.intercalate [' '] (wordsOf (" x  y ".data)) :=
  claim_C9_normalization 3 ("ab".data) (" x  y ".data) (by decide)

/-- One answer of the search endpoint as the fetchers read it: the
issues array (data.get, default empty) and the total field when the key
is present. -/
structure PageResp (R : Type) where
  issues : List R
  total : Option Nat

/-- The JQL search server: what a successful GET returns for a given
startAt and maxResults.  Failed requests are the concern of the
_request model, not of the pagination loops. -/
def Server (R : Type) := Nat → Nat → PageResp R

/-- Python data.get with the running total as default:
total = data.get("total", total). -/
def keepTotal (new old : Option Nat) : Option Nat :=
  match new with
  | some t => some t
  | none => old

/-- Python truthiness test `if max_issues and fetched >= max_issues`:
None and 0 are both falsy, so 0 disables the cap. -/
def capHit (maxIssues : Option Nat) (fetched : Nat) : Bool :=
  match maxIssues with
  | none => false
  | some m => decide (m ≠ 0) && decide (m ≤ fetched)

/-- The loop of fetch_issue_pages_for_project, yielding
(issues, page_start, total) triples; fuel bounds the number of
iterations of the unbounded source loop. -/
def fetchPagesGo {R : Type} (srv : Server R) (pageSize : Nat)
    (maxIssues : Option Nat) :
    Nat → Nat → Option Nat → Nat → List (List R × Nat × Option Nat)
  | _, _, _, 0 => []
  | fetched, current, total, fuel + 1 =>
    let resp := srv current pageSize
    let total2 := keepTotal resp.total total
    if resp.issues.isEmpty then []
    else
      let fetched2 := fetched + resp.issues.length
      if capHit maxIssues fetched2 then [(resp.issues, current, total2)]
      else
        let current2 := current + resp.issues.length
        match total2 with
        | some t =>
          if t ≤ current2 then [(resp.issues, current, total2)]
          else (resp.issues, current, total2) ::
            fetchPagesGo srv pageSize maxIssues fetched2 current2 total2 fuel
        | none => (resp.issues, current, total2) ::
            fetchPagesGo srv pageSize maxIssues fetched2 current2 total2 fuel

/-- The loop of fetch_issues_for_project, yielding individual issues;
the cap check runs after each yielded record, so a page can be cut
mid-way. -/
def fetchIssuesGo {R : Type} (srv : Server R) (pageSize : Nat)
    (maxIssues : Option Nat) :
    Nat → Nat → Option Nat → Nat → List R
  | _, _, _, 0 => []
  | fetched, startAt, total, fuel + 1 =>
    let resp := srv startAt pageSize
    let total2 := keepTotal resp.total total
    if resp.issues.isEmpty then []
    else
      let stop : Bool :=
        match total2 with
        | some t => decide (t ≤ startAt + resp.issues.length)
        | none => false
      let rest : List R :=
        if stop then []
        else fetchIssuesGo srv pageSize maxIssues
          (fetched + resp.issues.length) (startAt + resp.issues.length)
          total2 fuel
      match maxIssues with
      | some m =>
        if m ≠ 0 ∧ m ≤ fetched + resp.issues.length then
          resp.issues.take (m - fetched)
        else resp.issues ++ rest
      | none => resp.issues ++ rest

/-- A well-behaved collection server: pages slice a fixed issue list and
the total field always reports its length. -/
def listServer {R : Type} (xs : List R) : Server R :=
  fun startAt maxResults => ⟨(xs.drop startAt).take maxResults, some xs.length⟩

theorem fetchPagesGo_zero_none {R : Type} (srv : Server R) (ps : Nat) :
    ∀ (fuel fetched current : Nat) (total : Option Nat),
      fetchPagesGo srv ps (some 0) fetched current total fuel =
        fetchPagesGo srv ps none fetched current total fuel := by
  intro fuel
  induction fuel with
  | zero => intro _ _ _; rfl
  | succ f ih =>
    intro fetched current total
    simp only [fetchPagesGo]
    have hcap : ∀ n, capHit (some 0) n = false := by intro n; simp [capHit]
    rw [hcap, ih]
    have hcapn : ∀ n, capHit (none : Option Nat) n = false := fun _ => rfl
    rw [hcapn]

theorem fetchIssuesGo_zero_none {R : Type} (srv : Server R) (ps : Nat) :
    ∀ (fuel fetched startAt : Nat) (total : Option Nat),
      fetchIssuesGo srv ps (some 0) fetched startAt total fuel =
        fetchIssuesGo srv ps none fetched startAt total fuel := by
  intro fuel
  induction fuel with
  | zero => intro _ _ _; rfl
  | succ f ih =>
    intro fetched startAt total
    simp only [fetchIssuesGo]
    rw [ih]
    have hcond : ¬ ((0 : Nat) ≠ 0 ∧
        0 ≤ fetched + (srv startAt ps).issues.length) := by
      intro hx
      exact hx.1 rfl
    rw [if_neg hcond]

theorem take_append_drop_length {R : Type} (n : Nat) (l : List R) :
    l.take n ++ l.drop ((l.take n).length) = l := by
  by_cases h : l.length ≤ n
  · rw [List.take_of_length_le h, List.drop_eq_nil_of_le (le_refl _)]
    simp
  · have hlen : (l.take n).length = n := by
      rw [List.length_take]
      omega
    rw [hlen, List.take_append_drop]

theorem fetchPagesGo_none_complete {R : Type} (xs : List R) (ps : Nat)
    (hps : 1 ≤ ps) :
    ∀ (fuel cur fetched : Nat) (total : Option Nat),
      xs.length ≤ cur + fuel →
      ((fetchPagesGo (listServer xs) ps none fetched cur total fuel).map
          (fun pg => pg.1)).flatten = xs.drop cur := by
  intro fuel
  induction fuel with
  | zero =>
    intro cur fetched total hlen
    have : xs.drop cur = [] := by
      apply List.drop_eq_nil_of_le
      omega
    simp [fetchPagesGo, this]
  | succ f ih =>
    intro cur fetched total hlen
    simp only [fetchPagesGo, listServer, keepTotal, capHit,
      Bool.false_eq_true, if_false]
    by_cases hcur : xs.length ≤ cur
    · have hdrop : xs.drop cur = [] := List.drop_eq_nil_of_le hcur
      simp [hdrop]
    · have h1 : xs.drop cur ≠ [] := by
        intro hx
        have := congrArg List.length hx
        simp [List.length_drop] at this
        omega
      have hne : (xs.drop cur).take ps ≠ [] := by
        cases hd : xs.drop cur with
        | nil => exact absurd hd h1
        | cons y ys =>
          cases ps with
          | zero => omega
          | succ ps2 => simp [hd, List.take_succ_cons]
      rw [if_neg (by simp only [List.isEmpty_iff]; exact hne)]
      have htakele : ((xs.drop cur).take ps).length ≤ ps := by
        rw [List.length_take]
        exact min_le_left _ _
      have hlen1 : 1 ≤ ((xs.drop cur).take ps).length := by
        have := List.length_pos.mpr hne
        omega
      by_cases hreach : xs.length ≤ cur + ((xs.drop cur).take ps).length
      · rw [if_pos hreach]
        have hpslen : (xs.drop cur).length ≤ ps := by
          rw [List.length_drop]
          omega
        simp [List.take_of_length_le hpslen]
      · rw [if_neg hreach]
        rw [List.map_cons, List.flatten_cons]
        rw [ih (cur + ((xs.drop cur).take ps).length) _ _ (by omega)]
        rw [show xs.drop (cur + ((xs.drop cur).take ps).length) =
            (xs.drop cur).drop ((xs.drop cur).take ps).length from
          (List.drop_drop _ cur xs).symm]
        exact take_append_drop_length ps (xs.drop cur)

/-- C10: the pagination generators test the truthiness of max_issues, so
max_issues = 0 behaves exactly like max_issues = None: both page and
issue fetching produce identical outputs for every server, state and
fuel, and against a well-behaved collection server a run capped at 0
starting from offset 0 yields pages covering the whole collection rather
than stopping at zero records. -/
theorem claim_C10_max_issues_zero {R : Type} (srv : Server R) (ps : Nat)
    (xs : List R) (fuel : Nat) :
    (∀ (fetched current : Nat) (total : Option Nat),
      fetchPagesGo srv ps (some 0) fetched current total fuel =
        fetchPagesGo srv ps none fetched current total fuel) ∧
    (∀ (fetched startAt : Nat) (total : Option Nat),
      fetchIssuesGo srv ps (some 0) fetched startAt total fuel =
        fetchIssuesGo srv ps none fetched startAt total fuel) ∧
    (1 ≤ ps → xs.length ≤ fuel →
      ((fetchPagesGo (listServer xs) ps (some 0) 0 0 none fuel).map
          (fun pg => pg.1)).flatten = xs) := by
  refine ⟨?_, ?_, ?_⟩
  · intro fetched current total
    exact fetchPagesGo_zero_none srv ps fuel fetched current total
  · intro fetched startAt total
    exact fetchIssuesGo_zero_none srv ps fuel fetched startAt total
  · intro hps hfuel
    rw [fetchPagesGo_zero_none]
    have := fetchPagesGo_none_complete xs ps hps fuel 0 0 none (by omega)
    simpa using this

theorem claim_C10_witness :
    (fetchPagesGo (listServer [10, 20, 30]) 2 (some 0) 5 1 none 7 =
      fetchPagesGo (listServer [10, 20, 30]) 2 none 5 1 none 7) ∧
    (fetchIssuesGo (listServer [10, 20, 30]) 2 (some 0) 5 1 none 7 =
      fetchIssuesGo (listServer [10, 20, 30]) 2 none 5 1 none 7) ∧
    ((fetchPagesGo (listServer [10, 20, 30]) 2 (some 0) 0 0 none 4).map
        (fun pg => pg.1)).flatten = [10, 20, 30] := by
  have h := claim_C10_max_issues_zero (listServer [10, 20, 30]) 2
    [10, 20, 30] 4
  refine ⟨?_, ?_, h.2.2 (by norm_num) (by norm_num)⟩
  · exact (claim_C10_max_issues_zero (listServer [10, 20, 30]) 2
      [10, 20, 30] 7).1 5 1 none
  · exact (claim_C10_max_issues_zero (listServer [10, 20, 30]) 2
      [10, 20, 30] 7).2.1 5 1 none

end Scraper
